import Mathlib

set_option maxRecDepth 10000

/-!
Verification of the go-fetch download/extraction pipeline.

The Go source is embedded shallowly:

* Go strings and byte slices are lists of characters (`Str`); the Unix
  path separator is the character '/'.
* The pure string/path helpers from the standard library that the
  program uses (`strings.HasPrefix`, `strings.TrimSuffix`,
  `filepath.Clean`, `filepath.Join`, `filepath.Abs`, `filepath.Dir`,
  `filepath.FromSlash`) are translated to executable Lean functions
  with the same semantics on Unix.
* Filesystem effects are modelled as a trace of `FsAction` values: the
  extractor returns the ordered list of filesystem mutations it would
  perform plus an optional fatal error; a fatal error terminates the
  trace, mirroring the early `return err` in the Go code.
* `os.FileMode` is a natural number holding the uint32 mode bits.
-/

/-- Strings and byte slices of the model: Go `string`/`[]byte` as a
list of characters. -/
abbrev Str : Type := List Char

/-- `strings.HasPrefix s pre` (also `bytes.HasPrefix`): does `s` start
with `pre`? -/
def strHasPre (s pre : Str) : Bool := pre.isPrefixOf s

/-- `strings.TrimSuffix s suf`: returns `s` without the provided
trailing suffix string, unchanged when `suf` is not a suffix. -/
def trimSuffix (s suf : Str) : Str :=
  if suf.isSuffixOf s then s.take (s.length - suf.length) else s

/-- `strings.ContainsRune s c` specialised to the model: membership of
a character in the string. -/
def containsRune (s : Str) (c : Char) : Bool := s.contains c

/-- Split a path at '/' characters; the resulting chunks contain no
'/' and concatenating them with '/' restores the input. Helper for
`filepathClean`. -/
def splitSlash : Str → List Str
  | [] => [[]]
  | c :: cs =>
    if c = '/' then [] :: splitSlash cs
    else
      match splitSlash cs with
      | [] => [[c]]
      | h :: t => (c :: h) :: t

/-- One step of `filepath.Clean`'s element processing: push a normal
component, and resolve a ".." against the accumulated (reversed) stack
exactly as Go's lazybuf algorithm does — pop a real component, keep
accumulating leading ".." when the path is relative, drop a ".."
applied at the root of an absolute path. -/
def cleanStep (rooted : Bool) (acc : List Str) (c : Str) : List Str :=
  if c = ['.', '.'] then
    match acc with
    | [] => if rooted then [] else [c]
    | top :: rest => if top = ['.', '.'] then c :: acc else rest
  else c :: acc

/-- Join path components with '/' (no leading or trailing separator).
Helper for `filepathClean`. -/
def joinSlash : List Str → Str
  | [] => []
  | [c] => c
  | c :: cs => c ++ '/' :: joinSlash cs

/-- The non-empty, non-"." components of a path, in order. Helper for
`filepathClean`. -/
def pathComps (p : Str) : List Str :=
  (splitSlash p).filter fun c => decide (c ≠ [] ∧ c ≠ ['.'])

/-- Run `cleanStep` over the components and join the surviving ones
with '/'. Helper for `filepathClean`. -/
def cleanOut (rooted : Bool) (comps : List Str) : Str :=
  joinSlash ((comps.foldl (cleanStep rooted) []).reverse)

/-- `filepath.Clean` on Unix: shortest lexically-equivalent path —
collapse duplicate separators, drop "." components, resolve ".."
against preceding components (".." at the root of an absolute path is
dropped, leading ".." of a relative path is kept), empty result
becomes ".". Functional rendering of Go's lazybuf loop. -/
def filepathClean (p : Str) : Str :=
  if p = [] then ['.']
  else if p.head? = some '/' then '/' :: cleanOut true (pathComps p)
  else if cleanOut false (pathComps p) = [] then ['.']
  else cleanOut false (pathComps p)

/-- `filepath.IsAbs` on Unix: the path starts with '/'. -/
def isAbsPath (p : Str) : Bool := p.head? = some '/'

/-- `filepath.Join(a, b)` on Unix: concatenate with a separator and
clean, skipping empty leading elements as Go does. -/
def filepathJoin (a b : Str) : Str :=
  if a ≠ [] then filepathClean (a ++ '/' :: b)
  else if b ≠ [] then filepathClean b
  else []

/-- `filepath.Abs` on Unix, with the working directory passed
explicitly: an absolute path is cleaned, a relative one is joined to
the working directory. -/
def filepathAbs (cwd p : Str) : Str :=
  if isAbsPath p then filepathClean p else filepathJoin cwd p

/-- `filepath.FromSlash` on Unix is the identity (the separator is
'/'). -/
def fromSlash (p : Str) : Str := p

/-- `filepath.Dir` on Unix: everything up to and including the final
'/', cleaned; "." when the path has no separator. -/
def filepathDir (p : Str) : Str :=
  filepathClean ((p.reverse.dropWhile fun c => c ≠ '/').reverse)

/-! ## Go `os.FileMode` bits (uint32) -/

/-- os.ModeDir: bit 31. -/
def ModeDir : Nat := 2 ^ 31
/-- os.ModeSymlink: bit 27. -/
def ModeSymlink : Nat := 2 ^ 27
/-- os.ModeDevice: bit 26. -/
def ModeDevice : Nat := 2 ^ 26
/-- os.ModeNamedPipe: bit 25. -/
def ModeNamedPipe : Nat := 2 ^ 25
/-- os.ModeSocket: bit 24. -/
def ModeSocket : Nat := 2 ^ 24
/-- os.ModeCharDevice: bit 21. -/
def ModeCharDevice : Nat := 2 ^ 21
/-- os.ModeIrregular: bit 19. -/
def ModeIrregular : Nat := 2 ^ 19
/-- os.ModeType: the mask of all file-type bits; `m.IsRegular()` is
`m &&& ModeType = 0`. -/
def ModeType : Nat :=
  ModeDir ||| ModeSymlink ||| ModeNamedPipe ||| ModeSocket ||| ModeDevice |||
    ModeCharDevice ||| ModeIrregular

/-- go-fetch `unarchivePerm`: directory-creation mode repair — add the
other-execute bit when any other-rwx bit is set, add the group-execute
bit when any group-rwx bit is set, and always add owner write+execute
(0300). -/
def unarchivePerm (mode : Nat) : Nat :=
  let m1 := if mode &&& 0o007 ≠ 0 then mode ||| 0o001 else mode
  let m2 := if m1 &&& 0o070 ≠ 0 then m1 ||| 0o010 else m1
  m2 ||| 0o300

/-! ## The archive abstraction and the extractor -/

/-- One archive entry as surfaced by `unarchiveNext` (tar or zip
backend): name, uint32 mode bits, declared size, the byte content the
per-entry reader yields, and whether the modification time is the zero
time. -/
structure Entry where
  name : Str
  mode : Nat
  size : Nat
  content : Str
  mtimeZero : Bool
  mtime : Nat
deriving DecidableEq, Repr

/-- A filesystem mutation the extractor performs, in program order. -/
inductive FsAction where
  /-- `os.MkdirAll path perm`. -/
  | mkdirAll (path : Str) (perm : Nat)
  /-- `os.OpenFile(path, O_WRONLY|O_CREATE|O_TRUNC, perm)` followed by
  copying `content` into it. -/
  | createFile (path : Str) (perm : Nat) (content : Str)
  /-- `os.Symlink(target, path)`. -/
  | symlink (target : Str) (path : Str)
  /-- `os.Chtimes(path, t, t)` (best effort). -/
  | chtimes (path : Str) (mtime : Nat)
deriving DecidableEq, Repr

/-- The path a filesystem action touches (creates or mutates). -/
def FsAction.actPath : FsAction → Str
  | .mkdirAll p _ => p
  | .createFile p _ _ => p
  | .symlink _ p => p
  | .chtimes p _ => p

/-- Fatal errors `unarchive` can return. -/
inductive UErr where
  /-- `fmt.Errorf("illegal file path %q", name)`. -/
  | illegalPath (name : Str)
  /-- `fmt.Errorf("wrote %d bytes to %q; expected %d", n, name, size)`. -/
  | wroteSize (n size : Nat) (name : Str)
  /-- `fmt.Errorf("archive contained unsupported file %q of type %v", name, mode)`. -/
  | unsupportedEntry (name : Str) (mode : Nat)
deriving DecidableEq, Repr

/-- The per-entry loop of go-fetch `unarchive`, over the destination
directory `dirS` (already absolute with a trailing separator): join
the entry name to the destination, reject the entry with a fatal
"illegal file path" error when the joined path does not keep `dirS`
as a prefix, and otherwise dispatch on the mode's type bits exactly as
the Go switch does (directory, regular file, symlink, fatal error on
anything else).  Returns the trace of filesystem actions and the
loop's result. -/
def unarchiveGo (dirS : Str) : List Entry → List FsAction × Option UErr
  | [] => ([], none)
  | e :: rest =>
    let p := filepathJoin dirS (fromSlash e.name)
    if strHasPre p dirS = false then ([], some (.illegalPath e.name))
    else if e.mode &&& ModeDir ≠ 0 then
      let r := unarchiveGo dirS rest
      (.mkdirAll p (unarchivePerm e.mode) :: r.1, r.2)
    else if e.mode &&& ModeType = 0 then
      if e.content.length ≠ e.size then
        ([.createFile p e.mode e.content],
          some (.wroteSize e.content.length e.size e.name))
      else
        let r := unarchiveGo dirS rest
        (.createFile p e.mode e.content ::
          (if e.mtimeZero then r.1 else .chtimes p e.mtime :: r.1), r.2)
    else if e.mode &&& ModeSymlink ≠ 0 then
      let r := unarchiveGo dirS rest
      (.symlink e.content p :: r.1, r.2)
    else ([], some (.unsupportedEntry e.name e.mode))

/-- The canonicalized destination of `unarchive`: `filepath.Abs(dir)`
with a trailing separator appended. -/
def unarchiveDir (cwd dir : Str) : Str := filepathAbs cwd dir ++ ['/']

/-- go-fetch `unarchive`: canonicalize the destination, create it,
then run the entry loop. -/
def unarchive (cwd dir : Str) (entries : List Entry) :
    List FsAction × Option UErr :=
  let dirS := unarchiveDir cwd dir
  let r := unarchiveGo dirS entries
  (.mkdirAll dirS 0o777 :: r.1, r.2)

/-! ## The format sniffer -/

/-- The five classifications of go-fetch `uncompress`'s switch. -/
inductive SniffClass where
  | gzip
  | bzip2
  | zip
  | tar
  | opaq
deriving DecidableEq, Repr

/-- The two-byte gzip magic 0x1f 0x8b. -/
def gzMagic : Str := [Char.ofNat 0x1f, Char.ofNat 0x8b]

/-- The bzip2 magic "BZh". -/
def bzMagic : Str := ['B', 'Z', 'h']

/-- The zip local-file-header magic "PK". -/
def pkMagic : Str := ['P', 'K']

/-- The tar magic "ustar" found at offset 257 of a tar header. -/
def ustarMagic : Str := ['u', 's', 't', 'a', 'r']

/-- The number of bytes `uncompress` peeks: `r.Peek(264)`. -/
def sniffWindow : Nat := 264

/-- The classification switch of go-fetch `uncompress`, applied to the
peeked bytes `magic` with `so` the "destination is standard output"
flag: gzip magic, else bzip2 magic, else (not stdout) zip magic, else
(not stdout, more than 257 bytes available) "ustar" at offset 257,
else opaque. -/
def classify (magic : Str) (so : Bool) : SniffClass :=
  if strHasPre magic gzMagic then .gzip
  else if strHasPre magic bzMagic then .bzip2
  else if !so && strHasPre magic pkMagic then .zip
  else if !so && (decide (257 < magic.length) &&
      strHasPre (magic.drop 257) ustarMagic) then .tar
  else .opaq

/-- The sniffer contract as the specification words it: gzip when the
prefix starts with the gzip magic; else bzip2 when it starts with
"BZh"; else zip when the destination is not standard output and it
starts with "PK"; else tar when the destination is not standard output
and the five bytes at offset 257 equal "ustar"; else opaque. -/
def classifySpec (magic : Str) (so : Bool) : SniffClass :=
  if strHasPre magic gzMagic then .gzip
  else if strHasPre magic bzMagic then .bzip2
  else if !so && strHasPre magic pkMagic then .zip
  else if !so && decide ((magic.drop 257).take 5 = ustarMagic) then .tar
  else .opaq

/-! ## The recursive decompressor -/

/-- A stream as a stack of compression layers.  The gzip and bzip2
codecs (`compress/gzip`, `compress/bzip2`) are external to this
repository; a valid gzip layer carries the name embedded in its
header (empty when absent) and its decompressed payload, a valid
bzip2 layer carries its decompressed payload, and `plain` is any
other byte stream. -/
inductive Layer where
  | gz (name : Str) (inner : Layer)
  | bz (inner : Layer)
  | plain (bytes : Str)
deriving DecidableEq, Repr

/-- The bytes `r.Peek(264)` yields for a layered stream: a gzip
(resp. bzip2) stream starts with its magic, and a plain stream shows
up to `sniffWindow` of its own bytes. -/
def peek264 : Layer → Str
  | .gz _ _ => gzMagic
  | .bz _ => bzMagic
  | .plain bs => bs.take sniffWindow

/-- go-fetch `uncompress` on the layered stream model, threading the
inferred target name: a gzip layer adopts the header-embedded name
when non-empty and otherwise strips a trailing ".gz" from the current
name, then recurses on the decompressed stream; a bzip2 layer strips
a trailing ".bz2" and recurses; a plain stream is terminal and is
dispatched by its classification (zip and tar to `unarchive`, opaque
to the verbatim copy; the gzip/bzip2 classes are unreachable for a
valid terminal stream and surface the decoder's error).  Returns the
final inferred name and the terminal classification. -/
def uncompress (so : Bool) (tn : Str) : Layer → Str × SniffClass
  | .gz nm inner =>
    uncompress so (if nm = [] then trimSuffix tn ['.', 'g', 'z'] else nm) inner
  | .bz inner =>
    uncompress so (trimSuffix tn ['.', 'b', 'z', '2']) inner
  | .plain bs => (tn, classify (bs.take sniffWindow) so)

/-! ## The plain-file target path (`targetFile`) -/

/-- The outcome of `targetFile`'s path computation. -/
inductive TFRes where
  /-- `log.Fatalf("illegal file path: %q", targetName)`. -/
  | illegal (name : Str)
  /-- `os.MkdirAll(filepath.Dir p, 0777)` then create/truncate at `p`. -/
  | ok (mkdirAt : Str) (filePath : Str)
deriving DecidableEq, Repr

/-- go-fetch `targetFile` path logic for a non-stdout destination,
with the working directory explicit: when the target is a directory,
the inferred name is rejected if it contains a separator, else joined
to the target; the result is made absolute, its parent directory is
created, and the file is created/truncated there. -/
def targetFilePath (cwd tgt tn : Str) (isDirF : Bool) : TFRes :=
  if isDirF then
    let nm := fromSlash tn
    if containsRune nm '/' then .illegal tn
    else
      let p := filepathAbs cwd (filepathJoin tgt nm)
      .ok (filepathDir p) p
  else
    let p := filepathAbs cwd tgt
    .ok (filepathDir p) p

/-! ## Helper lemmas about path cleaning -/

/-- A well-formed path component: nonempty and free of separators. -/
def goodChunk (c : Str) : Prop := c ≠ [] ∧ '/' ∉ c

lemma splitSlash_ne_nil (p : Str) : splitSlash p ≠ [] := by
  induction p with
  | nil => simp [splitSlash]
  | cons c cs ih =>
    simp only [splitSlash]
    split
    · simp
    · split <;> simp

lemma splitSlash_no_sep (p : Str) : ∀ c ∈ splitSlash p, '/' ∉ c := by
  induction p with
  | nil =>
    intro c hc
    simp [splitSlash] at hc
    simp [hc]
  | cons a as ih =>
    intro c hc
    simp only [splitSlash] at hc
    by_cases ha : a = '/'
    · simp [ha] at hc
      rcases hc with h | h
      · simp [h]
      · exact ih c h
    · simp only [if_neg ha] at hc
      cases hsp : splitSlash as with
      | nil => exact absurd hsp (splitSlash_ne_nil as)
      | cons h t =>
        rw [hsp] at hc
        rcases List.mem_cons.mp hc with h1 | h1
        · subst h1
          intro hmem
          rcases List.mem_cons.mp hmem with h2 | h2
          · exact ha h2.symm
          · exact ih h (by rw [hsp]; exact List.mem_cons_self h t) h2
        · exact ih c (by rw [hsp]; exact List.mem_cons_of_mem h h1)

lemma goodChunk_dotdot : goodChunk ['.', '.'] := by
  constructor
  · simp
  · simp

lemma cleanStep_good {rooted : Bool} {acc : List Str} {c : Str}
    (ha : ∀ x ∈ acc, goodChunk x) (hc : goodChunk c) :
    ∀ x ∈ cleanStep rooted acc c, goodChunk x := by
  intro x hx
  unfold cleanStep at hx
  by_cases hdd : c = ['.', '.']
  · rw [if_pos hdd] at hx
    cases acc with
    | nil =>
      replace hx : x ∈ (if rooted = true then ([] : List Str) else [c]) := hx
      by_cases hr : rooted = true
      · simp [hr] at hx
      · simp [hr] at hx
        rw [hx, hdd]
        exact goodChunk_dotdot
    | cons top rest =>
      replace hx : x ∈ (if top = ['.', '.'] then c :: top :: rest else rest) := hx
      by_cases ht : top = ['.', '.']
      · rw [if_pos ht] at hx
        rcases List.mem_cons.mp hx with h | h
        · rw [h, hdd]
          exact goodChunk_dotdot
        · exact ha x h
      · rw [if_neg ht] at hx
        exact ha x (List.mem_cons_of_mem top hx)
  · rw [if_neg hdd] at hx
    rcases List.mem_cons.mp hx with h | h
    · rw [h]
      exact hc
    · exact ha x h

lemma foldl_cleanStep_good (rooted : Bool) :
    ∀ (cs : List Str) (acc : List Str),
      (∀ x ∈ acc, goodChunk x) → (∀ c ∈ cs, goodChunk c) →
      ∀ x ∈ cs.foldl (cleanStep rooted) acc, goodChunk x := by
  intro cs
  induction cs with
  | nil => intro acc ha _ x hx; exact ha x hx
  | cons c cs ih =>
    intro acc ha hcs x hx
    simp only [List.foldl_cons] at hx
    exact ih (cleanStep rooted acc c)
      (cleanStep_good ha (hcs c (List.mem_cons_self c cs)))
      (fun d hd => hcs d (List.mem_cons_of_mem c hd)) x hx

lemma joinSlash_good :
    ∀ (l : List Str), l ≠ [] → (∀ x ∈ l, goodChunk x) →
      joinSlash l ≠ [] ∧ (joinSlash l).getLast? ≠ some '/' := by
  intro l
  induction l with
  | nil => intro h; exact absurd rfl h
  | cons c cs ih =>
    intro _ hg
    cases cs with
    | nil =>
      have hc := hg c (List.mem_cons_self c [])
      refine ⟨hc.1, fun hlast => hc.2 (List.mem_of_getLast?_eq_some hlast)⟩
    | cons d ds =>
      obtain ⟨h1, h2⟩ := ih (by simp) fun x hx => hg x (List.mem_cons_of_mem c hx)
      have hjoin : joinSlash (c :: d :: ds) = c ++ '/' :: joinSlash (d :: ds) := rfl
      constructor
      · simp [hjoin]
      · rw [hjoin]
        have hcons : ('/' :: joinSlash (d :: ds)).getLast? = (joinSlash (d :: ds)).getLast? := by
          cases hj : joinSlash (d :: ds) with
          | nil => exact absurd hj h1
          | cons e es => simp
        rw [List.getLast?_append, hcons]
        cases hy : (joinSlash (d :: ds)).getLast? with
        | none =>
          have := List.getLast?_isSome.mpr h1
          rw [hy] at this
          simp at this
        | some y =>
          rw [Option.or_some]
          intro hcon
          exact h2 (hy.trans hcon)

lemma cleanOut_good (rooted : Bool) (p : Str) :
    cleanOut rooted (pathComps p) = [] ∨
      (cleanOut rooted (pathComps p)).getLast? ≠ some '/' := by
  have hcomps : ∀ c ∈ pathComps p, goodChunk c := by
    intro c hc
    obtain ⟨hmem, hcond⟩ := List.mem_filter.mp hc
    exact ⟨(of_decide_eq_true hcond).1, splitSlash_no_sep p c hmem⟩
  cases hrev : ((pathComps p).foldl (cleanStep rooted) []).reverse with
  | nil =>
    left
    simp [cleanOut, hrev, joinSlash]
  | cons e es =>
    right
    have hgood : ∀ x ∈ e :: es, goodChunk x := by
      intro x hx
      refine foldl_cleanStep_good rooted (pathComps p) [] (by simp) hcomps x ?_
      exact List.mem_reverse.mp (hrev ▸ hx)
    have hjs := joinSlash_good (e :: es) (by simp) hgood
    simpa [cleanOut, hrev] using hjs.2

lemma filepathClean_ne_nil (p : Str) : filepathClean p ≠ [] := by
  unfold filepathClean
  split
  · simp
  · split
    · simp
    · split
      · simp
      · assumption

lemma filepathClean_getLast (p : Str)
    (h : (filepathClean p).getLast? = some '/') : filepathClean p = ['/'] := by
  unfold filepathClean at h ⊢
  split at h
  · simp at h
  · split at h
    · rcases cleanOut_good true p with hout | hout
      · simp [*]
      · cases hc : cleanOut true (pathComps p) with
        | nil => simp [*]
        | cons e es =>
          rw [hc] at h
          rw [List.getLast?_cons_cons] at h
          rw [hc] at hout
          exact absurd h hout
    · split at h
      · simp at h
      · rcases cleanOut_good false p with hout | hout
        · simp_all
        · exact absurd h hout

lemma filepathClean_ne_concat_sep (q base : Str) (hb : base ≠ []) :
    filepathClean q ≠ base ++ ['/'] := by
  intro h
  have hlast : (filepathClean q).getLast? = some '/' := by
    rw [h]
    exact List.getLast?_concat base
  have hroot := filepathClean_getLast q hlast
  rw [hroot] at h
  have : base.length + 1 = 1 := by
    have := congrArg List.length h
    simpa using this.symm
  exact hb (List.eq_nil_of_length_eq_zero (by omega))

lemma filepathAbs_eq_clean (cwd p : Str) (hcwd : cwd ≠ []) :
    ∃ q, filepathAbs cwd p = filepathClean q := by
  unfold filepathAbs filepathJoin
  by_cases habs : isAbsPath p = true
  · rw [if_pos habs]
    exact ⟨p, rfl⟩
  · rw [if_neg habs, if_pos hcwd]
    exact ⟨cwd ++ '/' :: p, rfl⟩

lemma filepathAbs_ne_nil (cwd p : Str) (hcwd : cwd ≠ []) :
    filepathAbs cwd p ≠ [] := by
  obtain ⟨q, hq⟩ := filepathAbs_eq_clean cwd p hcwd
  rw [hq]
  exact filepathClean_ne_nil q

lemma unarchiveDir_ne_nil (cwd dir : Str) : unarchiveDir cwd dir ≠ [] := by
  unfold unarchiveDir
  simp

lemma joined_ne_unarchiveDir (cwd dir x : Str) (hcwd : cwd ≠ []) :
    filepathJoin (unarchiveDir cwd dir) x ≠ unarchiveDir cwd dir := by
  have hne := unarchiveDir_ne_nil cwd dir
  unfold filepathJoin
  rw [if_pos hne]
  unfold unarchiveDir
  exact filepathClean_ne_concat_sep _ _ (filepathAbs_ne_nil cwd dir hcwd)

/-- Every filesystem action the entry loop emits carries the joined
path of one of the entries, and that path passed the prefix check. -/
lemma unarchiveGo_path_mem (dirS : Str) :
    ∀ (es : List Entry) (a : FsAction), a ∈ (unarchiveGo dirS es).1 →
      ∃ e ∈ es, FsAction.actPath a = filepathJoin dirS (fromSlash e.name) ∧
        strHasPre (filepathJoin dirS (fromSlash e.name)) dirS = true := by
  intro es
  induction es with
  | nil => intro a ha; simp [unarchiveGo] at ha
  | cons e rest ih =>
    intro a ha
    simp only [unarchiveGo] at ha
    by_cases hpre : strHasPre (filepathJoin dirS (fromSlash e.name)) dirS = false
    · rw [if_pos hpre] at ha
      simp at ha
    · rw [if_neg hpre] at ha
      have hpret : strHasPre (filepathJoin dirS (fromSlash e.name)) dirS = true := by
        revert hpre
        cases strHasPre (filepathJoin dirS (fromSlash e.name)) dirS <;> simp
      by_cases hdir : e.mode &&& ModeDir ≠ 0
      · rw [if_pos hdir] at ha
        rcases List.mem_cons.mp ha with h | h
        · exact ⟨e, List.mem_cons_self e rest, by rw [h]; exact ⟨rfl, hpret⟩⟩
        · obtain ⟨e', he', hp⟩ := ih a h
          exact ⟨e', List.mem_cons_of_mem e he', hp⟩
      · rw [if_neg hdir] at ha
        by_cases hreg : e.mode &&& ModeType = 0
        · rw [if_pos hreg] at ha
          by_cases hmis : e.content.length ≠ e.size
          · rw [if_pos hmis] at ha
            rcases List.mem_cons.mp ha with h | h
            · exact ⟨e, List.mem_cons_self e rest, by rw [h]; exact ⟨rfl, hpret⟩⟩
            · simp at h
          · rw [if_neg hmis] at ha
            rcases List.mem_cons.mp ha with h | h
            · exact ⟨e, List.mem_cons_self e rest, by rw [h]; exact ⟨rfl, hpret⟩⟩
            · by_cases hmt : e.mtimeZero = true
              · rw [if_pos hmt] at h
                obtain ⟨e', he', hp⟩ := ih a h
                exact ⟨e', List.mem_cons_of_mem e he', hp⟩
              · rw [if_neg hmt] at h
                rcases List.mem_cons.mp h with h2 | h2
                · exact ⟨e, List.mem_cons_self e rest, by rw [h2]; exact ⟨rfl, hpret⟩⟩
                · obtain ⟨e', he', hp⟩ := ih a h2
                  exact ⟨e', List.mem_cons_of_mem e he', hp⟩
        · rw [if_neg hreg] at ha
          by_cases hsym : e.mode &&& ModeSymlink ≠ 0
          · rw [if_pos hsym] at ha
            rcases List.mem_cons.mp ha with h | h
            · exact ⟨e, List.mem_cons_self e rest, by rw [h]; exact ⟨rfl, hpret⟩⟩
            · obtain ⟨e', he', hp⟩ := ih a h
              exact ⟨e', List.mem_cons_of_mem e he', hp⟩
          · rw [if_neg hsym] at ha
            simp at ha

/-- Claim C1: for every archive entry extracted by `unarchive`, the
destination path is the join of the canonical destination directory
(absolute, trailing separator) with the entry's name; every emitted
filesystem action either targets the destination itself (the initial
`MkdirAll`) or a path that has the trailing-separator-qualified
destination as a strict prefix, and an entry whose joined path lacks
that strict prefix makes the loop abort at once with the fatal
"illegal file path" error, emitting no filesystem action for that
entry or any later one. -/
theorem unarchive_containment (cwd dir : Str) (entries : List Entry)
    (hcwd : cwd ≠ []) :
    (∀ a ∈ (unarchive cwd dir entries).1,
        FsAction.actPath a = unarchiveDir cwd dir ∨
          (unarchiveDir cwd dir <+: FsAction.actPath a ∧
            FsAction.actPath a ≠ unarchiveDir cwd dir))
  ∧ ∀ (e : Entry) (rest : List Entry),
      ¬(unarchiveDir cwd dir <+:
            filepathJoin (unarchiveDir cwd dir) (fromSlash e.name) ∧
          filepathJoin (unarchiveDir cwd dir) (fromSlash e.name) ≠
            unarchiveDir cwd dir) →
      unarchiveGo (unarchiveDir cwd dir) (e :: rest) =
        ([], some (UErr.illegalPath e.name)) := by
  constructor
  · intro a ha
    simp only [unarchive] at ha
    rcases List.mem_cons.mp ha with h | h
    · left
      rw [h]
      rfl
    · right
      obtain ⟨e, he, hpath, hpre⟩ :=
        unarchiveGo_path_mem (unarchiveDir cwd dir) entries a h
      refine ⟨?_, ?_⟩
      · rw [hpath]
        exact List.isPrefixOf_iff_prefix.mp (by simpa [strHasPre] using hpre)
      · rw [hpath]
        exact joined_ne_unarchiveDir cwd dir (fromSlash e.name) hcwd
  · intro e rest hnot
    have hne := joined_ne_unarchiveDir cwd dir (fromSlash e.name) hcwd
    have hnpre : ¬(unarchiveDir cwd dir <+:
        filepathJoin (unarchiveDir cwd dir) (fromSlash e.name)) :=
      fun hp => hnot ⟨hp, hne⟩
    have hfalse : strHasPre (filepathJoin (unarchiveDir cwd dir)
        (fromSlash e.name)) (unarchiveDir cwd dir) = false := by
      unfold strHasPre
      rw [← Bool.not_eq_true]
      exact fun ht => hnpre (List.isPrefixOf_iff_prefix.mp ht)
    simp [unarchiveGo, hfalse]

/-- Witness for C1: the traversal entry name "../e" against the
destination "/out" is rejected with the "illegal file path" error and
produces no filesystem action. -/
theorem unarchive_containment_wit :
    unarchiveGo (unarchiveDir ['/'] ['/', 'o', 'u', 't'])
        [⟨['.', '.', '/', 'e'], 0, 0, [], true, 0⟩] =
      ([], some (UErr.illegalPath ['.', '.', '/', 'e'])) :=
  (unarchive_containment ['/'] ['/', 'o', 'u', 't'] [] (by decide)).2
    ⟨['.', '.', '/', 'e'], 0, 0, [], true, 0⟩ [] (by decide)

/-! ## Bit-mask helper lemmas -/

lemma and_mask_sub {m a b : Nat} (hab : a &&& b = b) (h : m &&& a = 0) :
    m &&& b = 0 := by
  calc m &&& b = m &&& (a &&& b) := by rw [hab]
    _ = m &&& a &&& b := (Nat.and_assoc m a b).symm
    _ = 0 := by rw [h]; exact Nat.zero_and b

lemma and_or_split {m a b c : Nat} (habc : a ||| b = c) (hc : m &&& c ≠ 0)
    (ha : m &&& a = 0) : m &&& b ≠ 0 := by
  intro hb
  apply hc
  rw [← habc, Nat.and_or_distrib_left, ha, hb]
  exact Nat.zero_or 0

lemma testBit_of_and_two_pow_ne {m k : Nat} (h : m &&& 2 ^ k ≠ 0) :
    m.testBit k = true := by
  by_contra hb
  apply h
  apply Nat.eq_of_testBit_eq
  intro i
  rw [Nat.testBit_and, Nat.testBit_two_pow, Nat.zero_testBit]
  by_cases hk : k = i
  · subst hk
    simp at hb
    simp [hb]
  · simp [hk]

lemma or_two_pow_absorb {m k : Nat} (h : m.testBit k = true) :
    m ||| 2 ^ k = m := by
  apply Nat.eq_of_testBit_eq
  intro i
  rw [Nat.testBit_or, Nat.testBit_two_pow]
  by_cases hk : k = i
  · subst hk
    simp [h]
  · simp [hk]

lemma or_bit_and_mask {m c a : Nat} (hca : c &&& a = 0) :
    (m ||| c) &&& a = m &&& a := by
  rw [Nat.and_distrib_right, hca, Nat.or_zero]

/-- Claim C3: a regular-file entry whose copied byte count differs
from its declared size makes the loop stop at once with the fatal
size-integrity error (the error records the byte counts and the entry
name); no later entry is processed. -/
theorem regular_size_mismatch_fatal (dirS : Str) (e : Entry)
    (rest : List Entry)
    (hpre : strHasPre (filepathJoin dirS (fromSlash e.name)) dirS = true)
    (hreg : e.mode &&& ModeType = 0)
    (hmis : e.content.length ≠ e.size) :
    unarchiveGo dirS (e :: rest) =
      ([FsAction.createFile (filepathJoin dirS (fromSlash e.name)) e.mode
          e.content],
        some (UErr.wroteSize e.content.length e.size e.name)) := by
  have hdir : e.mode &&& ModeDir = 0 :=
    and_mask_sub (show ModeType &&& ModeDir = ModeDir by decide) hreg
  simp [unarchiveGo, hpre, hdir, hreg, hmis]

/-- Witness for C3: a 2-byte regular entry declaring size 5 is a fatal
integrity error. -/
theorem regular_size_mismatch_fatal_wit :
    unarchiveGo ['/', 'o', 'u', 't', '/']
        [⟨['f'], 0, 5, ['h', 'i'], true, 0⟩] =
      ([FsAction.createFile ['/', 'o', 'u', 't', '/', 'f'] 0 ['h', 'i']],
        some (UErr.wroteSize 2 5 ['f'])) :=
  regular_size_mismatch_fatal ['/', 'o', 'u', 't', '/'] _ _ (by decide)
    (by decide) (by decide)

/-- Claim C5: an entry whose mode is neither directory, regular, nor
symlink is a fatal error naming the entry; the loop emits no action
for it and processes nothing further. -/
theorem unsupported_entry_fatal (dirS : Str) (e : Entry) (rest : List Entry)
    (hpre : strHasPre (filepathJoin dirS (fromSlash e.name)) dirS = true)
    (hdir : e.mode &&& ModeDir = 0)
    (hntype : e.mode &&& ModeType ≠ 0)
    (hsym : e.mode &&& ModeSymlink = 0) :
    unarchiveGo dirS (e :: rest) =
      ([], some (UErr.unsupportedEntry e.name e.mode)) := by
  simp [unarchiveGo, hpre, hdir, hntype, hsym]

/-- Witness for C5: a socket entry is rejected fatally, naming the
entry. -/
theorem unsupported_entry_fatal_wit :
    unarchiveGo ['/', 'o', 'u', 't', '/']
        [⟨['s'], ModeSocket, 0, [], true, 0⟩] =
      ([], some (UErr.unsupportedEntry ['s'] ModeSocket)) :=
  unsupported_entry_fatal _ _ _ (by decide) (by decide) (by decide) (by decide)

/-- Claim C7: a symlink entry is materialized as a symbolic link whose
target is exactly the entry's raw content, with no validation or
rewriting of the target (in particular the target may point outside
the destination); processing then continues with the remaining
entries. -/
theorem symlink_literal_target (dirS : Str) (e : Entry) (rest : List Entry)
    (hpre : strHasPre (filepathJoin dirS (fromSlash e.name)) dirS = true)
    (hdir : e.mode &&& ModeDir = 0)
    (hsym : e.mode &&& ModeSymlink ≠ 0) :
    unarchiveGo dirS (e :: rest) =
      (FsAction.symlink e.content (filepathJoin dirS (fromSlash e.name)) ::
          (unarchiveGo dirS rest).1,
        (unarchiveGo dirS rest).2) := by
  have hntype : e.mode &&& ModeType ≠ 0 := fun h =>
    hsym (and_mask_sub (show ModeType &&& ModeSymlink = ModeSymlink by decide) h)
  simp [unarchiveGo, hpre, hdir, hntype, hsym]

/-- Witness for C7: a symlink entry with the out-of-tree target
"/etc/x" is created with that literal target. -/
theorem symlink_literal_target_wit :
    unarchiveGo ['/', 'o', 'u', 't', '/']
        [⟨['l'], ModeSymlink, 0, ['/', 'e', 't', 'c', '/', 'x'], true, 0⟩] =
      ([FsAction.symlink ['/', 'e', 't', 'c', '/', 'x']
          ['/', 'o', 'u', 't', '/', 'l']], none) :=
  symlink_literal_target _ _ _ (by decide) (by decide) (by decide)

/-- The directory-creation mode as the claim words it: the stored mode
plus owner write and execute always, plus group execute when any group
read-or-write bit is set, plus other execute when any other
read-or-write bit is set. -/
def claimDirPerm (mode : Nat) : Nat :=
  ((mode ||| 0o300) ||| (if mode &&& 0o060 ≠ 0 then 0o010 else 0)) |||
    (if mode &&& 0o006 ≠ 0 then 0o001 else 0)

lemma nat_or_left_comm (a b c : Nat) : a ||| (b ||| c) = b ||| (a ||| c) := by
  rw [← Nat.or_assoc, Nat.or_comm a b, Nat.or_assoc]

lemma perm_low_step (n : Nat) :
    (if n &&& 7 ≠ 0 then n ||| 1 else n) =
      n ||| (if n &&& 6 ≠ 0 then 1 else 0) := by
  by_cases h6 : n &&& 6 = 0
  · by_cases h7 : n &&& 7 = 0
    · simp [h6, h7]
    · have h1 : n &&& 1 ≠ 0 := and_or_split (by decide) h7 h6
      have hb : n.testBit 0 = true := testBit_of_and_two_pow_ne (by simpa using h1)
      have habs : n ||| 1 = n := by simpa using or_two_pow_absorb hb
      simp [h6, h7, habs]
  · have h7 : n &&& 7 ≠ 0 := fun h => h6 (and_mask_sub (by decide) h)
    simp [h6, h7]

lemma perm_grp_step (n : Nat) :
    (if n &&& 56 ≠ 0 then n ||| 8 else n) =
      n ||| (if n &&& 48 ≠ 0 then 8 else 0) := by
  by_cases h48 : n &&& 48 = 0
  · by_cases h56 : n &&& 56 = 0
    · simp [h48, h56]
    · have h8 : n &&& 8 ≠ 0 := and_or_split (by decide) h56 h48
      have hb : n.testBit 3 = true := by
        refine testBit_of_and_two_pow_ne ?_
        rw [show (2 : Nat) ^ 3 = 8 by norm_num]
        exact h8
      have habs : n ||| 8 = n := by
        have := or_two_pow_absorb hb
        rwa [show (2 : Nat) ^ 3 = 8 by norm_num] at this
      simp [h48, h56, habs]
  · have h56 : n &&& 56 ≠ 0 := fun h => h48 (and_mask_sub (by decide) h)
    simp [h48, h56]

/-- Claim C8: the mode `unarchive` passes to directory creation equals
the entry's stored mode augmented by owner write+execute always, group
execute whenever a group read-or-write bit is set, and other execute
whenever an other read-or-write bit is set; and a directory entry that
passes the path check is materialized by exactly one idempotent
`MkdirAll` at that mode, after which the loop continues. -/
theorem unarchivePerm_matches_claim :
    (∀ m : Nat, unarchivePerm m = claimDirPerm m)
  ∧ ∀ (dirS : Str) (e : Entry) (rest : List Entry),
      strHasPre (filepathJoin dirS (fromSlash e.name)) dirS = true →
      e.mode &&& ModeDir ≠ 0 →
      unarchiveGo dirS (e :: rest) =
        (FsAction.mkdirAll (filepathJoin dirS (fromSlash e.name))
            (unarchivePerm e.mode) :: (unarchiveGo dirS rest).1,
          (unarchiveGo dirS rest).2) := by
  constructor
  · intro m
    simp only [unarchivePerm, claimDirPerm]
    rw [perm_low_step m]
    have ho : (m ||| (if m &&& 6 ≠ 0 then 1 else 0)) &&& 48 = m &&& 48 := by
      by_cases h6 : m &&& 6 = 0
      · simp [h6]
      · simp only [h6, ne_eq, not_false_iff, if_true]
        exact or_bit_and_mask (by decide)
    rw [perm_grp_step, ho]
    simp only [Nat.or_assoc]
    simp [Nat.or_comm, nat_or_left_comm]
    rw [Nat.or_assoc]
  · intro dirS e rest hpre hdir
    simp [unarchiveGo, hpre, hdir]

/-- Witness for C8: a directory entry stored with mode 0040 is created
with mode ModeDir + 0350. -/
theorem unarchivePerm_matches_claim_wit :
    unarchiveGo ['/', 'o', 'u', 't', '/']
        [⟨['d'], ModeDir ||| 0o040, 0, [], true, 0⟩] =
      ([FsAction.mkdirAll ['/', 'o', 'u', 't', '/', 'd']
          (unarchivePerm (ModeDir ||| 0o040))], none) :=
  unarchivePerm_matches_claim.2 _ _ _ (by decide) (by decide)

lemma ustar_guard_eq (m : Str) :
    (decide (257 < m.length) && strHasPre (m.drop 257) ustarMagic) =
      decide ((m.drop 257).take 5 = ustarMagic) := by
  by_cases h : (m.drop 257).take 5 = ustarMagic
  · have hlen5 : 5 ≤ (m.drop 257).length := by
      rcases Nat.lt_or_ge (m.drop 257).length 5 with hlt | hge
      · exfalso
        rw [List.take_of_length_le (Nat.le_of_lt hlt)] at h
        have hlg : (m.drop 257).length = 5 := by rw [h]; rfl
        omega
      · exact hge
    have hlen : 257 < m.length := by
      rw [List.length_drop] at hlen5
      omega
    have hpre : strHasPre (m.drop 257) ustarMagic = true := by
      unfold strHasPre
      have hp : ustarMagic <+: m.drop 257 :=
        List.prefix_iff_eq_take.mpr (by exact h.symm)
      exact List.isPrefixOf_iff_prefix.mpr hp
    simp [h, hlen, hpre]
  · rw [decide_eq_false h]
    by_cases hlen : 257 < m.length
    · rw [decide_eq_true hlen, Bool.true_and]
      unfold strHasPre
      rw [← Bool.not_eq_true]
      intro ht
      have hp := List.isPrefixOf_iff_prefix.mp ht
      rw [List.prefix_iff_eq_take] at hp
      exact h hp.symm
    · rw [decide_eq_false hlen, Bool.false_and]

/-- Claim C2: the sniffer's classification agrees exactly with the
specification's contract (gzip magic, else bzip2 magic, else — not
stdout — zip magic, else — not stdout — "ustar" at offset 257, else
opaque), and with a standard-output destination no stream is ever
classified zip or tar (such streams fall through to the opaque
verbatim copy). -/
theorem classify_matches_spec :
    (∀ (magic : Str) (so : Bool), classify magic so = classifySpec magic so)
  ∧ ∀ magic : Str,
      classify magic true = SniffClass.gzip ∨
      classify magic true = SniffClass.bzip2 ∨
      classify magic true = SniffClass.opaq := by
  constructor
  · intro magic so
    unfold classify classifySpec
    rw [ustar_guard_eq]
  · intro magic
    unfold classify
    by_cases h1 : strHasPre magic gzMagic = true
    · simp [h1]
    · by_cases h2 : strHasPre magic bzMagic = true
      · simp [h1, h2]
      · simp [h1, h2]

/-- Counterexample to C4 as stated: "BZh" is a 3-byte prefix, far
shorter than the 264-byte sniff window, yet it is classified bzip2,
not opaque — a short prefix is only opaque when it matches no magic. -/
theorem short_bzh_not_opaq :
    (['B', 'Z', 'h'] : Str).length < sniffWindow ∧
      classify ['B', 'Z', 'h'] false = SniffClass.bzip2 ∧
      ¬ classify ['B', 'Z', 'h'] false = SniffClass.opaq := by decide

/-- Claim C4 (amended): classification of a prefix shorter than the
sniff window never fails — every prefix test that needs more bytes
than are available simply fails — and such a prefix is classified
opaque provided it matches none of the magic tests (gzip, bzip2, zip,
and "ustar" at offset 257). -/
theorem short_magicless_opaq (magic : Str) (so : Bool)
    (hlen : magic.length < sniffWindow)
    (hgz : strHasPre magic gzMagic = false)
    (hbz : strHasPre magic bzMagic = false)
    (hpk : strHasPre magic pkMagic = false)
    (htar : strHasPre (magic.drop 257) ustarMagic = false) :
    classify magic so = SniffClass.opaq := by
  unfold classify
  simp [hgz, hbz, hpk, htar]

/-- Witness for C4 (amended): a 1-byte prefix matching no magic is
classified opaque. -/
theorem short_magicless_opaq_wit :
    classify ['X'] false = SniffClass.opaq :=
  short_magicless_opaq ['X'] false (by decide) (by decide) (by decide)
    (by decide) (by decide)

lemma trimSuffix_append (x suf : Str) : trimSuffix (x ++ suf) suf = x := by
  unfold trimSuffix
  have hs : suf.isSuffixOf (x ++ suf) = true :=
    List.isSuffixOf_iff_suffix.mpr (List.suffix_append x suf)
  rw [if_pos hs, List.length_append]
  have hsub : x.length + suf.length - suf.length = x.length := by omega
  rw [hsub]
  exact List.take_left x suf

/-- Claim C6: a stream starting with the gzip magic is classified
gzip and the decompressor recurses with the inferred name updated —
the header-embedded name when non-empty, otherwise the current name
with a trailing ".gz" stripped; symmetrically a bzip2 stream recurses
with a trailing ".bz2" stripped (the final two conjuncts exhibit the
stripping on names that do carry the suffix). -/
theorem gzip_bzip2_name_update (so : Bool) (tn nm : Str) (inner : Layer) :
    classify (peek264 (Layer.gz nm inner)) so = SniffClass.gzip ∧
    uncompress so tn (Layer.gz nm inner) =
      uncompress so (if nm = [] then trimSuffix tn ['.', 'g', 'z'] else nm)
        inner ∧
    classify (peek264 (Layer.bz inner)) so = SniffClass.bzip2 ∧
    uncompress so tn (Layer.bz inner) =
      uncompress so (trimSuffix tn ['.', 'b', 'z', '2']) inner ∧
    trimSuffix (tn ++ ['.', 'g', 'z']) ['.', 'g', 'z'] = tn ∧
    trimSuffix (tn ++ ['.', 'b', 'z', '2']) ['.', 'b', 'z', '2'] = tn := by
  refine ⟨?_, rfl, ?_, rfl, trimSuffix_append tn _, trimSuffix_append tn _⟩
  · have h : strHasPre gzMagic gzMagic = true := by decide
    simp [peek264, classify, h]
  · have h1 : strHasPre bzMagic gzMagic = false := by decide
    have h2 : strHasPre bzMagic bzMagic = true := by decide
    simp [peek264, classify, h1, h2]

/-- Claim C9 (code-bug evaluation): with destination directory
"/out/sub" the inferred name ".." contains no separator, so
`targetFile`'s check lets it through: the parent directory "/" is
created and the file is created/truncated at "/out" — a path that is
not inside "/out/sub/" — with no "illegal file path" error; a name
with a separator, by contrast, is rejected. -/
theorem targetFile_dotdot_escapes :
    targetFilePath ['/'] ['/', 'o', 'u', 't', '/', 's', 'u', 'b'] ['.', '.']
        true =
      TFRes.ok ['/'] ['/', 'o', 'u', 't'] ∧
    strHasPre ['/', 'o', 'u', 't']
      (['/', 'o', 'u', 't', '/', 's', 'u', 'b'] ++ ['/']) = false ∧
    targetFilePath ['/'] ['/', 'o', 'u', 't', '/', 's', 'u', 'b']
        ['.', '.', '/', 'e'] true =
      TFRes.illegal ['.', '.', '/', 'e'] := by decide
